import Mathlib

/-!
Verification of the lossless-throttle operator.

The operator consists of two stages folded over the arriving payloads:

* `schedulePayload` — prunes the queue to the current period, checks the
  optional capacity, and appends a new planned emission;
* `executeSchedule` — reads the tail of the queue, refuses to re-emit an
  already-scheduled tail, and otherwise marks it scheduled and emits it.

Times are modelled as integers (milliseconds).  The queue is a `List` of
`ThrottleInterface` records, oldest first, exactly as in the source.
`runTrace` folds both stages over a list of `(arrivalTime, payload)` pairs,
mirroring the `scan` / `concatMap` pipeline, which processes arrivals
synchronously in order.
-/

/-- One queued item: the stored delay, the absolute emission timestamp, the
flag saying whether the executor already initiated emission, and the payload. -/
structure ThrottleInterface (T : Type) where
  delay : Int
  emitTime : Int
  scheduled : Bool
  payload : T
deriving Repr, DecidableEq

variable {T : Type}

/-- Predicate from the source: `data.emitTime > now - period`. -/
def isWithinCurrentPeriod (now period : Int) (data : ThrottleInterface T) : Bool :=
  decide (data.emitTime > now - period)

/-- Truthiness of the optional `maxBuffer` argument (`!!maxBuffer` in the
source): present and nonzero. -/
def maxBufferTruthy (maxBuffer : Option Nat) : Bool :=
  match maxBuffer with
  | some k => k != 0
  | none => false

/-- The capacity test of the source: `!!maxBuffer && queue.length === maxBuffer`. -/
def atCapacity (maxBuffer : Option Nat) (len : Nat) : Bool :=
  maxBufferTruthy maxBuffer && (len == maxBuffer.getD 0)

/-- The scheduler step from the source.  It filters the queue through
`isWithinCurrentPeriod`, returns the pruned queue unchanged when at capacity,
and otherwise pushes a fresh item whose delay is `rate` (or `0` on an empty
queue) and whose emit time is `queue[0].emitTime + rate` (or `now`). -/
def schedulePayload (rate period : Int) (maxBuffer : Option Nat)
    (queue : List (ThrottleInterface T)) (payload : T) (now : Int) :
    List (ThrottleInterface T) :=
  let q := queue.filter (isWithinCurrentPeriod now period)
  if atCapacity maxBuffer q.length then q
  else
    q ++ [{ delay := if q.length > 0 then rate else 0,
            emitTime := match q.head? with
                        | some h => h.emitTime + rate
                        | none => now,
            scheduled := false,
            payload := payload }]

/-- Mark the last element of the queue as scheduled (the in-place mutation
`lastItem.scheduled = true` of the source). -/
def markLastScheduled : List (ThrottleInterface T) → List (ThrottleInterface T)
  | [] => []
  | [x] => [{ x with scheduled := true }]
  | x :: y :: xs => x :: markLastScheduled (y :: xs)

/-- One item with its `scheduled` flag set, as the executor leaves the tail. -/
def markScheduled (x : ThrottleInterface T) : ThrottleInterface T :=
  { x with scheduled := true }

/-- The executor from the source.  `none` models the failed element access
`queue[queue.length - 1]` on an empty queue; otherwise the result carries the
optional emission (the tail item, or nothing when its `scheduled` flag is
already set) together with the queue after the flag mutation. -/
def executeSchedule (queue : List (ThrottleInterface T)) :
    Option (Option (ThrottleInterface T) × List (ThrottleInterface T)) :=
  match queue.getLast? with
  | none => none
  | some last =>
    if last.scheduled then some (none, queue)
    else some (some last, markLastScheduled queue)

/-- One arrival processed through both stages, as the pipeline does
synchronously per upstream value: scheduler first, executor on its output. -/
def step (rate period : Int) (maxBuffer : Option Nat)
    (queue : List (ThrottleInterface T)) (now : Int) (payload : T) :
    List (ThrottleInterface T) × Option (ThrottleInterface T) :=
  let q := schedulePayload rate period maxBuffer queue payload now
  match executeSchedule q with
  | none => (q, none)
  | some (em, q2) => (q2, em)

/-- Fold the pipeline over a list of `(arrivalTime, payload)` pairs, returning
the final queue and the emissions in order. -/
def runTrace (rate period : Int) (maxBuffer : Option Nat) :
    List (Int × T) → List (ThrottleInterface T) →
    List (ThrottleInterface T) × List (ThrottleInterface T)
  | [], queue => (queue, [])
  | (now, p) :: rest, queue =>
    let r := step rate period maxBuffer queue now p
    let tl := runTrace rate period maxBuffer rest r.1
    (tl.1, r.2.toList ++ tl.2)

/-- A queue state reachable by running the pipeline from the empty queue. -/
def Reachable (rate period : Int) (maxBuffer : Option Nat)
    (q : List (ThrottleInterface T)) : Prop :=
  ∃ arrivals : List (Int × T), q = (runTrace rate period maxBuffer arrivals []).1

/-- The emit times of the queue, in queue order. -/
def emitTimes (q : List (ThrottleInterface T)) : List Int :=
  q.map (·.emitTime)

/-- The scheduler step written after the words of the spec: Step 1 removes
every element whose `emitTime <= now - period`; Step 2 returns the pruned
queue unchanged when `maxBuffer` is set (to a nonzero value) and the pruned
length equals it; Step 3 appends a fresh unscheduled item with `delay = 0`
and `emitTime = now` on an empty pruned queue, and `delay = rate` with
`emitTime = queue[0].emitTime + rate` (anchored to the pruned head) otherwise. -/
def scheduleSpecStep (rate period : Int) (maxBuffer : Option Nat)
    (queue : List (ThrottleInterface T)) (payload : T) (now : Int) :
    List (ThrottleInterface T) :=
  let pruned := queue.filter (fun d => !(decide (d.emitTime ≤ now - period)))
  let appended :=
    match pruned.head? with
    | none => pruned ++ [⟨0, now, false, payload⟩]
    | some h => pruned ++ [⟨rate, h.emitTime + rate, false, payload⟩]
  match maxBuffer with
  | some k => if k ≠ 0 ∧ pruned.length = k then pruned else appended
  | none => appended

/-- Errors the spec asks construction to fail with. -/
inductive ConfigError where
  | invalidConfiguration
deriving Repr, DecidableEq

/-- An operator configuration as captured at construction time. -/
structure ThrottleConfig where
  rate : Int
  period : Int
  maxBuffer : Option Nat
deriving Repr, DecidableEq

/-- Construction of the operator, from the source: `losslessThrottle` performs
no validation of its arguments and directly returns the piped operator, so
construction always succeeds with the given configuration. -/
def losslessThrottle (rate period : Int) (maxBuffer : Option Nat) :
    Except ConfigError ThrottleConfig :=
  Except.ok ⟨rate, period, maxBuffer⟩

/-! ### Basic facts about the stages -/

lemma isWithinCurrentPeriod_eq_not_le (now period : Int) (d : ThrottleInterface T) :
    isWithinCurrentPeriod now period d = !(decide (d.emitTime ≤ now - period)) := by
  rw [isWithinCurrentPeriod, ← decide_not]
  exact decide_eq_decide.mpr (by omega)

lemma atCapacity_ne_zero {mb : Option Nat} {len : Nat} (h : atCapacity mb len = true) :
    len ≠ 0 := by
  cases mb with
  | none => simp [atCapacity, maxBufferTruthy] at h
  | some k =>
    simp only [atCapacity, maxBufferTruthy, Bool.and_eq_true, bne_iff_ne, ne_eq,
      beq_iff_eq, Option.getD_some] at h
    omega

lemma markScheduled_delay (x : ThrottleInterface T) : (markScheduled x).delay = x.delay := rfl

lemma markScheduled_emitTime (x : ThrottleInterface T) :
    (markScheduled x).emitTime = x.emitTime := rfl

lemma markScheduled_payload (x : ThrottleInterface T) :
    (markScheduled x).payload = x.payload := rfl

lemma markScheduled_scheduled (x : ThrottleInterface T) :
    (markScheduled x).scheduled = true := rfl

lemma markLastScheduled_concat (xs : List (ThrottleInterface T)) (x : ThrottleInterface T) :
    markLastScheduled (xs ++ [x]) = xs ++ [markScheduled x] := by
  induction xs with
  | nil => rfl
  | cons a t ih =>
    cases t with
    | nil => rfl
    | cons b t2 => simpa [markLastScheduled] using ih

lemma markLastScheduled_emitTimes (q : List (ThrottleInterface T)) :
    emitTimes (markLastScheduled q) = emitTimes q := by
  induction q with
  | nil => rfl
  | cons a t ih =>
    cases t with
    | nil => rfl
    | cons b t2 => simpa [markLastScheduled, emitTimes] using ih

/-- The scheduler of the source agrees with the scheduler transcribed from the
words of the spec: prune exactly the elements with `emitTime <= now - period`,
return the pruned queue unchanged at capacity, and otherwise append one fresh
item, fire-path (`delay 0`, `emitTime = now`) on an empty pruned queue and
head-anchored (`delay = rate`, `emitTime = queue[0].emitTime + rate`) on a
non-empty one.  (Claim C2.) -/
theorem schedulePayload_eq_spec (rate period : Int) (mb : Option Nat)
    (queue : List (ThrottleInterface T)) (p : T) (now : Int) :
    schedulePayload rate period mb queue p now = scheduleSpecStep rate period mb queue p now := by
  unfold schedulePayload scheduleSpecStep
  have hf : queue.filter (isWithinCurrentPeriod now period)
      = queue.filter (fun d => !(decide (d.emitTime ≤ now - period))) :=
    List.filter_congr (fun d _ => isWithinCurrentPeriod_eq_not_le now period d)
  rw [hf]
  set q := queue.filter (fun d => !(decide (d.emitTime ≤ now - period))) with hq
  cases mb with
  | none =>
    simp only [atCapacity, maxBufferTruthy, Bool.false_and, if_false]
    cases q with
    | nil => simp
    | cons h t => simp
  | some k =>
    simp only [atCapacity, maxBufferTruthy, Option.getD_some]
    by_cases hc : k ≠ 0 ∧ q.length = k
    · have hb : ((k != 0) && (q.length == k)) = true := by
        simp [hc.1, hc.2]
      simp [hb, hc]
    · have hb : ((k != 0) && (q.length == k)) = false := by
        by_contra hne
        rw [Bool.not_eq_false, Bool.and_eq_true, bne_iff_ne, beq_iff_eq] at hne
        exact hc hne
      simp only [hb, Bool.false_eq_true, if_false, if_neg hc]
      cases q with
      | nil => simp
      | cons h t => simp

/-- Every queue the executor receives is non-empty: the scheduler step returns
either the at-capacity pruned queue, whose length is the nonzero `maxBuffer`,
or a queue with a freshly appended element; hence the executor's read of the
tail element always succeeds.  (Claim C10.) -/
theorem executor_queue_nonempty (rate period : Int) (mb : Option Nat)
    (queue : List (ThrottleInterface T)) (p : T) (now : Int) :
    schedulePayload rate period mb queue p now ≠ [] ∧
    ∃ r, executeSchedule (schedulePayload rate period mb queue p now) = some r := by
  have hne : schedulePayload rate period mb queue p now ≠ [] := by
    unfold schedulePayload
    set q := queue.filter (isWithinCurrentPeriod now period) with hq
    by_cases hc : atCapacity mb q.length = true
    · simp only [hc, if_true]
      intro hnil
      exact atCapacity_ne_zero hc (by simp [hnil])
    · simp [Bool.not_eq_true] at hc
      simp [hc]
  refine ⟨hne, ?_⟩
  unfold executeSchedule
  cases hl : (schedulePayload rate period mb queue p now).getLast? with
  | none => exact absurd (List.getLast?_eq_none_iff.mp hl) hne
  | some last =>
    by_cases hs : last.scheduled = true
    · exact ⟨(none, schedulePayload rate period mb queue p now), by simp [hs]⟩
    · exact ⟨(some last, markLastScheduled (schedulePayload rate period mb queue p now)),
        by simp [hs]⟩

/-- The planned emission that the scheduler pushes when not at capacity. -/
def plannedEmission (rate now : Int) (pruned : List (ThrottleInterface T)) (p : T) :
    ThrottleInterface T :=
  { delay := if pruned.length > 0 then rate else 0,
    emitTime := match pruned.head? with
                | some h => h.emitTime + rate
                | none => now,
    scheduled := false,
    payload := p }

lemma schedulePayload_of_not_atCapacity {rate period : Int} {mb : Option Nat}
    {queue : List (ThrottleInterface T)} {p : T} {now : Int}
    (h : atCapacity mb (queue.filter (isWithinCurrentPeriod now period)).length = false) :
    schedulePayload rate period mb queue p now
      = queue.filter (isWithinCurrentPeriod now period)
        ++ [plannedEmission rate now (queue.filter (isWithinCurrentPeriod now period)) p] := by
  unfold schedulePayload plannedEmission
  simp [h]

lemma schedulePayload_of_atCapacity {rate period : Int} {mb : Option Nat}
    {queue : List (ThrottleInterface T)} {p : T} {now : Int}
    (h : atCapacity mb (queue.filter (isWithinCurrentPeriod now period)).length = true) :
    schedulePayload rate period mb queue p now
      = queue.filter (isWithinCurrentPeriod now period) := by
  unfold schedulePayload
  simp [h]

lemma executeSchedule_concat (xs : List (ThrottleInterface T)) {x : ThrottleInterface T}
    (hx : x.scheduled = false) :
    executeSchedule (xs ++ [x]) = some (some x, xs ++ [markScheduled x]) := by
  unfold executeSchedule
  rw [List.getLast?_concat]
  simp [hx, markLastScheduled_concat]

lemma executeSchedule_of_scheduled {q : List (ThrottleInterface T)} {l : ThrottleInterface T}
    (hl : q.getLast? = some l) (hs : l.scheduled = true) :
    executeSchedule q = some (none, q) := by
  unfold executeSchedule
  rw [hl]
  simp [hs]

lemma step_of_not_atCapacity {rate period : Int} {mb : Option Nat}
    {queue : List (ThrottleInterface T)} {p : T} {now : Int}
    (h : atCapacity mb (queue.filter (isWithinCurrentPeriod now period)).length = false) :
    step rate period mb queue now p
      = (queue.filter (isWithinCurrentPeriod now period)
          ++ [markScheduled
               (plannedEmission rate now (queue.filter (isWithinCurrentPeriod now period)) p)],
         some (plannedEmission rate now (queue.filter (isWithinCurrentPeriod now period)) p)) := by
  unfold step
  dsimp only
  rw [schedulePayload_of_not_atCapacity h, executeSchedule_concat _ rfl]

/-! ### Reachable-state invariants -/

/-- Between arrivals, every element of a reachable queue has already been
scheduled by the executor. -/
def AllScheduled (q : List (ThrottleInterface T)) : Prop :=
  ∀ x ∈ q, x.scheduled = true

lemma AllScheduled_filter {q : List (ThrottleInterface T)} (h : AllScheduled q)
    (f : ThrottleInterface T → Bool) : AllScheduled (q.filter f) :=
  fun x hx => h x (List.mem_filter.mp hx).1

lemma step_of_atCapacity {rate period : Int} {mb : Option Nat}
    {queue : List (ThrottleInterface T)} {p : T} {now : Int}
    (hq : AllScheduled queue)
    (h : atCapacity mb (queue.filter (isWithinCurrentPeriod now period)).length = true) :
    step rate period mb queue now p = (queue.filter (isWithinCurrentPeriod now period), none) := by
  have hne : queue.filter (isWithinCurrentPeriod now period) ≠ [] := by
    intro hnil
    exact atCapacity_ne_zero h (by simp [hnil])
  obtain ⟨l, hl⟩ := Option.isSome_iff_exists.mp (List.getLast?_isSome.mpr hne)
  have hmem : l ∈ queue.filter (isWithinCurrentPeriod now period) :=
    List.mem_of_getLast?_eq_some hl
  have hs : l.scheduled = true := (AllScheduled_filter hq _) l hmem
  unfold step
  dsimp only
  rw [schedulePayload_of_atCapacity h, executeSchedule_of_scheduled hl hs]

lemma step_allScheduled {rate period : Int} {mb : Option Nat}
    {queue : List (ThrottleInterface T)} {p : T} {now : Int} (hq : AllScheduled queue) :
    AllScheduled (step rate period mb queue now p).1 := by
  by_cases h : atCapacity mb (queue.filter (isWithinCurrentPeriod now period)).length = true
  · rw [step_of_atCapacity hq h]
    exact AllScheduled_filter hq _
  · rw [Bool.not_eq_true] at h
    rw [step_of_not_atCapacity h]
    intro x hx
    rcases List.mem_append.mp hx with hx | hx
    · exact (AllScheduled_filter hq _) x hx
    · rcases List.mem_singleton.mp hx with rfl
      rfl

lemma runTrace_allScheduled (rate period : Int) (mb : Option Nat)
    (arrivals : List (Int × T)) (queue : List (ThrottleInterface T))
    (hq : AllScheduled queue) :
    AllScheduled (runTrace rate period mb arrivals queue).1 := by
  induction arrivals generalizing queue with
  | nil => exact hq
  | cons a rest ih =>
    obtain ⟨now, p⟩ := a
    exact ih _ (step_allScheduled hq)

lemma reachable_allScheduled {rate period : Int} {mb : Option Nat}
    {q : List (ThrottleInterface T)} (hq : Reachable rate period mb q) :
    AllScheduled q := by
  obtain ⟨arrivals, rfl⟩ := hq
  exact runTrace_allScheduled rate period mb arrivals [] (fun x hx => absurd hx (by simp))

lemma atCapacity_none (len : Nat) : atCapacity none len = false := rfl

lemma atCapacity_eq_false_of_ne {k len : Nat} (h : len ≠ k) :
    atCapacity (some k) len = false := by
  simp [atCapacity, maxBufferTruthy, h]

lemma runTrace_lossless (rate period : Int) (mb : Option Nat) :
    ∀ (arrivals : List (Int × T)) (queue : List (ThrottleInterface T)),
    (mb = none ∨ ∃ k, mb = some k ∧ queue.length + arrivals.length ≤ k) →
    ((runTrace rate period mb arrivals queue).2.map (·.payload) = arrivals.map (·.2)) ∧
    (runTrace rate period mb arrivals queue).1.length ≤ queue.length + arrivals.length
  | [], queue, _ => by simp [runTrace]
  | (now, p) :: rest, queue, hcap => by
    have hple : (queue.filter (isWithinCurrentPeriod now period)).length ≤ queue.length :=
      List.length_filter_le _ _
    have hcapf : atCapacity mb (queue.filter (isWithinCurrentPeriod now period)).length
        = false := by
      rcases hcap with rfl | ⟨k, rfl, hk⟩
      · rfl
      · refine atCapacity_eq_false_of_ne ?_
        simp only [List.length_cons] at hk
        omega
    have hcap2 : mb = none ∨ ∃ k, mb = some k ∧
        (queue.filter (isWithinCurrentPeriod now period)
          ++ [markScheduled
               (plannedEmission rate now
                 (queue.filter (isWithinCurrentPeriod now period)) p)]).length
          + rest.length ≤ k := by
      rcases hcap with rfl | ⟨k, rfl, hk⟩
      · exact Or.inl rfl
      · refine Or.inr ⟨k, rfl, ?_⟩
        simp only [List.length_append, List.length_cons, List.length_nil] at hk ⊢
        omega
    have hrec := runTrace_lossless rate period mb rest
      (queue.filter (isWithinCurrentPeriod now period)
        ++ [markScheduled
             (plannedEmission rate now
               (queue.filter (isWithinCurrentPeriod now period)) p)]) hcap2
    simp only [runTrace, step_of_not_atCapacity hcapf, Option.toList_some,
      List.singleton_append, List.map_cons, List.map, List.length_cons]
    refine ⟨?_, ?_⟩
    · rw [hrec.1]
      rfl
    · have := hrec.2
      simp only [List.length_append, List.length_cons, List.length_nil] at this
      omega

/-- For every sequence of payloads arriving in order, within a window shorter
than `N * rate` and at intervals smaller than `rate`, if `maxBuffer` is unset
or `N ≤ maxBuffer` then the pipeline emits every payload exactly once, in
arrival order.  (Claim C1; the conclusion in fact needs only the capacity
hypothesis, since under capacity the scheduler appends every arrival and the
executor emits each freshly appended tail.) -/
theorem no_loss_under_capacity (rate period : Int) (mb : Option Nat)
    (arrivals : List (Int × T))
    (horder : arrivals.Chain' (fun a b => a.1 < b.1))
    (hfast : arrivals.Chain' (fun a b => b.1 - a.1 < rate))
    (hwindow : ∀ a ∈ arrivals, ∀ b ∈ arrivals, b.1 - a.1 < (arrivals.length : Int) * rate)
    (hcap : mb = none ∨ ∃ k, mb = some k ∧ arrivals.length ≤ k) :
    ((runTrace rate period mb arrivals ([] : List (ThrottleInterface T))).2).map
      (·.payload) = arrivals.map (·.2) := by
  refine (runTrace_lossless rate period mb arrivals [] ?_).1
  rcases hcap with rfl | ⟨k, rfl, hk⟩
  · exact Or.inl rfl
  · exact Or.inr ⟨k, rfl, by simpa using hk⟩

/-- Witness for `no_loss_under_capacity` at a concrete burst: two payloads
arriving 1 ms apart under rate 3 and period 10 with a buffer of 2. -/
theorem no_loss_under_capacity_witness :
    ((runTrace 3 10 (some 2) [((0 : Int), (10 : Nat)), (1, 20)] []).2).map
      (·.payload) = [10, 20] := by
  have h := no_loss_under_capacity 3 10 (some 2) [((0 : Int), (10 : Nat)), (1, 20)]
    (List.chain'_cons.mpr ⟨by norm_num, List.chain'_singleton _⟩)
    (List.chain'_cons.mpr ⟨by norm_num, List.chain'_singleton _⟩)
    (by decide) (Or.inr ⟨2, rfl, by decide⟩)
  simpa using h

/-- No planned emission is ever emitted twice: the scheduler appends items
with `scheduled = false`; the executor produces no emission whenever the tail
of the queue it processes already has `scheduled = true`; and re-processing
the queue left behind by any executor invocation produces no emission, even
when the same queue state is handed to the executor again.  (Claim C4.) -/
theorem at_most_once_emission (rate period : Int) (mb : Option Nat) :
    (∀ (queue : List (ThrottleInterface T)) (p : T) (now : Int),
      atCapacity mb (queue.filter (isWithinCurrentPeriod now period)).length = false →
      ∃ pruned item, schedulePayload rate period mb queue p now = pruned ++ [item] ∧
        item.scheduled = false) ∧
    (∀ (queue : List (ThrottleInterface T)) (l : ThrottleInterface T),
      queue.getLast? = some l → l.scheduled = true →
      executeSchedule queue = some (none, queue)) ∧
    (∀ (queue q2 : List (ThrottleInterface T)) (em : Option (ThrottleInterface T)),
      executeSchedule queue = some (em, q2) →
      executeSchedule q2 = some (none, q2)) := by
  refine ⟨?_, ?_, ?_⟩
  · intro queue p now h
    exact ⟨_, _, schedulePayload_of_not_atCapacity h, rfl⟩
  · intro queue l hl hs
    exact executeSchedule_of_scheduled hl hs
  · intro queue q2 em hexec
    cases hl : queue.getLast? with
    | none =>
      rw [executeSchedule, hl] at hexec
      exact absurd hexec (by simp)
    | some l =>
      obtain ⟨xs, rfl⟩ := List.getLast?_eq_some_iff.mp hl
      by_cases hs : l.scheduled = true
      · rw [executeSchedule_of_scheduled hl hs] at hexec
        obtain ⟨rfl, rfl⟩ : em = none ∧ q2 = xs ++ [l] := by
          simpa using hexec.symm
        exact executeSchedule_of_scheduled hl hs
      · rw [executeSchedule_concat xs (Bool.not_eq_true _ ▸ hs)] at hexec
        obtain ⟨rfl, rfl⟩ : em = some l ∧ q2 = xs ++ [markScheduled l] := by
          simpa using hexec.symm
        exact executeSchedule_of_scheduled (List.getLast?_concat xs) rfl

/-- Witness for `at_most_once_emission`: concrete instances of all three
conjuncts — a fresh append is unscheduled, a scheduled tail yields no
emission, and the executor is idempotent on its own output queue. -/
theorem at_most_once_emission_witness :
    (∃ pruned item,
      schedulePayload 3 10 none ([] : List (ThrottleInterface Nat)) 5 0
        = pruned ++ [item] ∧ item.scheduled = false) ∧
    executeSchedule [(⟨0, 0, true, 5⟩ : ThrottleInterface Nat)]
      = some (none, [⟨0, 0, true, 5⟩]) ∧
    executeSchedule (markLastScheduled [(⟨0, 0, false, 5⟩ : ThrottleInterface Nat)])
      = some (none, markLastScheduled [(⟨0, 0, false, 5⟩ : ThrottleInterface Nat)]) := by
  refine ⟨(at_most_once_emission 3 10 none).1 [] 5 0 rfl,
    (at_most_once_emission 3 10 none).2.1 [⟨0, 0, true, 5⟩] ⟨0, 0, true, 5⟩ (by simp) rfl,
    (at_most_once_emission 3 10 none).2.2 [⟨0, 0, false, 5⟩] _ (some ⟨0, 0, false, 5⟩) ?_⟩
  decide

lemma atCapacity_self {k : Nat} (hk : k ≠ 0) : atCapacity (some k) k = true := by
  simp [atCapacity, maxBufferTruthy, hk]

lemma ne_of_not_atCapacity {k len : Nat} (hk : k ≠ 0)
    (h : atCapacity (some k) len = false) : len ≠ k := by
  intro heq
  rw [heq, atCapacity_self hk] at h
  cases h

lemma step_length_le_cap {rate period : Int} {k : Nat} {queue : List (ThrottleInterface T)}
    {p : T} {now : Int} (hk : k ≠ 0) (hq : AllScheduled queue) (hlen : queue.length ≤ k) :
    (step rate period (some k) queue now p).1.length ≤ k := by
  have hple : (queue.filter (isWithinCurrentPeriod now period)).length ≤ queue.length :=
    List.length_filter_le _ _
  by_cases hc : atCapacity (some k) (queue.filter (isWithinCurrentPeriod now period)).length
      = true
  · rw [step_of_atCapacity hq hc]
    dsimp only
    omega
  · rw [Bool.not_eq_true] at hc
    rw [step_of_not_atCapacity hc]
    have hne := ne_of_not_atCapacity hk hc
    simp only [List.length_append, List.length_cons, List.length_nil]
    omega

lemma runTrace_length_le_cap (rate period : Int) {k : Nat} (hk : k ≠ 0)
    (arrivals : List (Int × T)) (queue : List (ThrottleInterface T))
    (hq : AllScheduled queue) (hlen : queue.length ≤ k) :
    (runTrace rate period (some k) arrivals queue).1.length ≤ k := by
  induction arrivals generalizing queue with
  | nil => exact hlen
  | cons a rest ih =>
    obtain ⟨now, p⟩ := a
    exact ih _ (step_allScheduled hq) (step_length_le_cap hk hq hlen)

/-- With `maxBuffer = k`, an arrival that finds the pruned queue at length `k`
leaves the queue unchanged and produces no downstream emission, and every
reachable queue holds at most `k` elements.  (Claim C6.) -/
theorem capacity_drop (rate period : Int) (k : Nat) (hk : k ≠ 0)
    (q : List (ThrottleInterface T)) (hq : Reachable rate period (some k) q)
    (p : T) (now : Int) :
    q.length ≤ k ∧
    ((q.filter (isWithinCurrentPeriod now period)).length = k →
      schedulePayload rate period (some k) q p now = q.filter (isWithinCurrentPeriod now period)
        ∧ step rate period (some k) q now p
            = (q.filter (isWithinCurrentPeriod now period), none)) := by
  have hsched : AllScheduled q := reachable_allScheduled hq
  constructor
  · obtain ⟨arrivals, rfl⟩ := hq
    exact runTrace_length_le_cap rate period hk arrivals [] (fun x hx => absurd hx (by simp))
      (by simp)
  · intro hfull
    have hcapT : atCapacity (some k) (q.filter (isWithinCurrentPeriod now period)).length
        = true := by
      rw [hfull]
      exact atCapacity_self hk
    exact ⟨schedulePayload_of_atCapacity hcapT, step_of_atCapacity hsched hcapT⟩

/-- Witness for `capacity_drop`: with `maxBuffer = 1`, the queue reached after
one arrival has length 1, and a second arrival one millisecond later is
dropped without an emission. -/
theorem capacity_drop_witness :
    ([⟨0, 0, true, 0⟩] : List (ThrottleInterface Nat)).length ≤ 1 ∧
    step 3 10 (some 1) ([⟨0, 0, true, 0⟩] : List (ThrottleInterface Nat)) 1 7
      = ([⟨0, 0, true, 0⟩], none) := by
  have h := capacity_drop 3 10 1 (by decide) ([⟨0, 0, true, 0⟩] : List (ThrottleInterface Nat))
    ⟨[(0, 0)], by decide⟩ 7 1
  have hfilter : ([⟨0, 0, true, 0⟩] : List (ThrottleInterface Nat)).filter
      (isWithinCurrentPeriod 1 10) = [⟨0, 0, true, 0⟩] := by decide
  refine ⟨h.1, ?_⟩
  have h2 := (h.2 (by rw [hfilter]; rfl)).2
  rwa [hfilter] at h2

lemma atCapacity_zero (mb : Option Nat) : atCapacity mb 0 = false := by
  cases mb with
  | none => rfl
  | some k =>
    cases k with
    | zero => rfl
    | succ n => simp [atCapacity, maxBufferTruthy]

/-- The idle-reset claim is false on the code: with `rate = 3000` and
`period = 1000`, payloads at t = 0 and t = 100 are followed by a payload at
t = 1200, i.e. after an idle gap of 1100 ms > period, yet that payload is
emitted with delay 3000, not 0 — pruning is driven by `emitTime` (3000, still
inside the look-back window), not by arrival times.  (Counterexample to
claim C7.) -/
theorem idle_reset_counterexample :
    ((runTrace 3000 1000 none [((0 : Int), (0 : Nat)), (100, 1), (1200, 2)] []).2).map
      (fun e => (e.payload, e.delay)) = [(0, 0), (1, 3000), (2, 3000)] ∧
    (1200 : Int) - 100 > 1000 ∧ ¬ ((3000 : Int) = 0) := by
  exact ⟨by decide, by decide, by decide⟩

/-- Amended idle reset: when the next payload arrives at a time `now` such
that every queued element's `emitTime` (not its arrival time) is at least
`period` old, the queue is fully pruned and the payload is emitted on the
fire path with delay 0 and `emitTime = now`.  (Amended claim C7.) -/
theorem idle_reset_fully_pruned (rate period : Int) (mb : Option Nat)
    (q : List (ThrottleInterface T)) (now : Int) (p : T)
    (hidle : ∀ x ∈ q, x.emitTime ≤ now - period) :
    schedulePayload rate period mb q p now = [⟨0, now, false, p⟩] ∧
    (step rate period mb q now p).2 = some ⟨0, now, false, p⟩ := by
  have hfe : q.filter (isWithinCurrentPeriod now period) = [] := by
    rw [List.filter_eq_nil_iff]
    intro a ha
    have := hidle a ha
    simp only [isWithinCurrentPeriod, decide_eq_true_eq, not_lt]
    omega
  have hcap : atCapacity mb (q.filter (isWithinCurrentPeriod now period)).length = false := by
    rw [hfe]
    exact atCapacity_zero mb
  constructor
  · rw [schedulePayload_of_not_atCapacity hcap, hfe]
    rfl
  · rw [step_of_not_atCapacity hcap, hfe]
    rfl

/-- Witness for `idle_reset_fully_pruned`: a queue whose only element has an
emit time 20 ms in the past of a 10 ms period is fully pruned, and the new
payload fires immediately. -/
theorem idle_reset_fully_pruned_witness :
    schedulePayload 3 10 none ([⟨0, 0, true, 0⟩] : List (ThrottleInterface Nat)) 1 20
      = [⟨0, 20, false, 1⟩] ∧
    (step 3 10 none ([⟨0, 0, true, 0⟩] : List (ThrottleInterface Nat)) 20 1).2
      = some ⟨0, 20, false, 1⟩ :=
  idle_reset_fully_pruned 3 10 none [⟨0, 0, true, 0⟩] 20 1 (by decide)

/-- The stored-delay claim is false on the code: for `rate = 3000` and
arrivals at t = 0 and t = 100, the second queued item stores `delay = 3000`
while its `emitTime` is 3000, i.e. only 2900 ms after its own scheduling time
100 — the stored delay does not equal `emitTime - now`.  (Counterexample to
claim C5.) -/
theorem delay_field_counterexample :
    ((runTrace 3000 1000 none [((0 : Int), (0 : Nat)), (100, 1)] []).2).map
      (fun e => (e.delay, e.emitTime)) = [(0, 0), (3000, 3000)] ∧
    ¬ ((3000 : Int) = 3000 - 100) := by
  exact ⟨by decide, by decide⟩

/-- Amended stored-delay claim: the appended item stores `delay = 0` with
`emitTime = now` when the pruned queue is empty (there `delay = emitTime -
now` does hold), and stores `delay = rate` with `emitTime = head.emitTime +
rate` when it is non-empty (there the delay until `emitTime` measured from
`now` is `head.emitTime + rate - now`, 2900 ms in the spec scenario, not the
stored `rate`).  (Amended claim C5.) -/
theorem delay_field_values (rate period now : Int) (mb : Option Nat)
    (q : List (ThrottleInterface T)) (p : T)
    (hcap : atCapacity mb (q.filter (isWithinCurrentPeriod now period)).length = false) :
    (q.filter (isWithinCurrentPeriod now period) = [] →
      (schedulePayload rate period mb q p now).getLast? = some ⟨0, now, false, p⟩) ∧
    (∀ h, (q.filter (isWithinCurrentPeriod now period)).head? = some h →
      (schedulePayload rate period mb q p now).getLast?
        = some ⟨rate, h.emitTime + rate, false, p⟩) := by
  rw [schedulePayload_of_not_atCapacity hcap]
  constructor
  · intro hfe
    rw [List.getLast?_concat, hfe]
    rfl
  · intro h hh
    rw [List.getLast?_concat]
    cases hq : q.filter (isWithinCurrentPeriod now period) with
    | nil => rw [hq] at hh; cases hh
    | cons h0 t =>
      rw [hq] at hh
      obtain rfl : h0 = h := by simpa using hh
      simp [plannedEmission]

/-- Witness for `delay_field_values`: under `rate = 3000`, the payload
arriving at t = 100 behind the item emitted at t = 0 is stored with delay
3000 and emit time 3000. -/
theorem delay_field_values_witness :
    (schedulePayload 3000 1000 none
      ([⟨0, 0, true, 0⟩] : List (ThrottleInterface Nat)) 1 100).getLast?
      = some ⟨3000, 0 + 3000, false, 1⟩ :=
  (delay_field_values 3000 1000 100 none [⟨0, 0, true, 0⟩] 1 (by decide)).2
    ⟨0, 0, true, 0⟩ (by decide)

/-- The validation claim is false on the code: `losslessThrottle` performs no
validation, so constructing it with non-positive `rate` and `period` succeeds
rather than failing with `InvalidConfiguration`, and the resulting pipeline
still produces schedules (with a negative stored delay).  (Counterexample to
claim C9.) -/
theorem config_validation_counterexample :
    losslessThrottle (-1) (-1) none = Except.ok ⟨-1, -1, none⟩ ∧
    losslessThrottle (-1) (-1) none ≠ Except.error ConfigError.invalidConfiguration ∧
    ((runTrace (-1) (5 : Int) none [((0 : Int), (0 : Nat)), (0, 1)] []).2).map
      (fun e => e.delay) = [0, -1] := by
  exact ⟨rfl, by simp [losslessThrottle], by decide⟩

/-- Amended validation claim: construction is never rejected — the operator
accepts any `rate` and `period`, including non-positive ones, and then
produces the nonsensical schedules the spec warns about: after an arrival at
t = 0 (whose reachable queue state is computed in the second conjunct), a
second payload is queued with the negative stored delay `rate`.  (Amended
claim C9.) -/
theorem config_never_rejected (rate period : Int) (mb : Option Nat)
    (hr : rate < 0) (hp : 0 < period) :
    (∃ cfg, losslessThrottle rate period mb = Except.ok cfg) ∧
    (runTrace rate period none [((0 : Int), (0 : Nat))] []).1 = [⟨0, 0, true, 0⟩] ∧
    ∃ item ∈ schedulePayload rate period none
        ([⟨0, 0, true, 0⟩] : List (ThrottleInterface Nat)) 1 0,
      item.delay < 0 := by
  refine ⟨⟨_, rfl⟩, rfl, ?_⟩
  have hf : ([⟨0, 0, true, 0⟩] : List (ThrottleInterface Nat)).filter
      (isWithinCurrentPeriod 0 period) = [⟨0, 0, true, 0⟩] := by
    simp only [List.filter, isWithinCurrentPeriod]
    have hd : decide ((0 : Int) > 0 - period) = true := decide_eq_true (by omega)
    rw [hd]
  refine ⟨plannedEmission rate 0 ([⟨0, 0, true, 0⟩] : List (ThrottleInterface Nat)) 1, ?_, ?_⟩
  · rw [schedulePayload_of_not_atCapacity (by rw [hf]; rfl), hf]
    simp
  · simpa [plannedEmission] using hr

/-- Witness for `config_never_rejected` at `rate = -1`, `period = 5`. -/
theorem config_never_rejected_witness :
    (∃ cfg, losslessThrottle (-1) 5 (some 4) = Except.ok cfg) ∧
    (runTrace (-1) (5 : Int) none [((0 : Int), (0 : Nat))] []).1 = [⟨0, 0, true, 0⟩] ∧
    ∃ item ∈ schedulePayload (-1) 5 none
        ([⟨0, 0, true, 0⟩] : List (ThrottleInterface Nat)) 1 0,
      item.delay < 0 :=
  config_never_rejected (-1) 5 (some 4) (by decide) (by decide)

/-! ### Order invariants on the queue -/

/-- Invariant carried by the emit times of a queue: they are non-decreasing,
and the last one exceeds no earlier one by more than `rate` (the last item is
anchored at most `rate` past any still-queued emit time). -/
def QueueTimesInvariant (rate : Int) (ts : List Int) : Prop :=
  ts.Pairwise (· ≤ ·) ∧ ∀ x ∈ ts, ∀ l, ts.getLast? = some l → l ≤ x + rate

lemma pairwise_le_getLast {ts : List Int} {l : Int} (hp : ts.Pairwise (· ≤ ·))
    (hl : ts.getLast? = some l) : ∀ x ∈ ts, x ≤ l := by
  obtain ⟨ys, rfl⟩ := List.getLast?_eq_some_iff.mp hl
  intro x hx
  rcases List.mem_append.mp hx with hx | hx
  · exact (List.pairwise_append.mp hp).2.2 x hx l (List.mem_singleton_self l)
  · rw [List.mem_singleton.mp hx]

lemma pairwise_head_le {ts : List Int} {h : Int} (hp : ts.Pairwise (· ≤ ·))
    (hh : ts.head? = some h) : ∀ x ∈ ts, h ≤ x := by
  cases ts with
  | nil => cases hh
  | cons a t =>
    obtain rfl : a = h := by simpa using hh
    intro x hx
    rcases List.mem_cons.mp hx with rfl | hx
    · exact le_refl x
    · exact (List.pairwise_cons.mp hp).1 x hx

lemma getLast?_cons_of_ne_nil {α : Type} (a : α) {t : List α} (ht : t ≠ []) :
    (a :: t).getLast? = t.getLast? := by
  cases t with
  | nil => exact absurd rfl ht
  | cons b t2 => exact List.getLast?_cons_cons

lemma QueueTimesInvariant_filter {rate : Int} {ts : List Int}
    (h : QueueTimesInvariant rate ts) (pred : Int → Bool) :
    QueueTimesInvariant rate (ts.filter pred) := by
  refine ⟨h.1.filter pred, ?_⟩
  intro x hx l hl
  have hxts : x ∈ ts := (List.mem_filter.mp hx).1
  have hlts : l ∈ ts := (List.mem_filter.mp (List.mem_of_getLast?_eq_some hl)).1
  have htsne : ts ≠ [] := fun h0 => by rw [h0] at hxts; cases hxts
  obtain ⟨l0, hl0⟩ := Option.isSome_iff_exists.mp (List.getLast?_isSome.mpr htsne)
  have h1 := h.2 x hxts l0 hl0
  have h2 : l ≤ l0 := pairwise_le_getLast h.1 hl0 l hlts
  omega

lemma QueueTimesInvariant.append_anchor {rate : Int} (hr : 0 ≤ rate) {ts : List Int} {hd : Int}
    (hts : QueueTimesInvariant rate ts) (hhd : ts.head? = some hd) :
    QueueTimesInvariant rate (ts ++ [hd + rate]) := by
  have htsne : ts ≠ [] := by
    intro h0
    rw [h0] at hhd
    cases hhd
  obtain ⟨l0, hl0⟩ := Option.isSome_iff_exists.mp (List.getLast?_isSome.mpr htsne)
  have hhdmem : hd ∈ ts := List.mem_of_mem_head? (Option.mem_def.mpr hhd)
  constructor
  · rw [List.pairwise_append]
    refine ⟨hts.1, List.pairwise_singleton _ _, ?_⟩
    intro x hx y hy
    rw [List.mem_singleton.mp hy]
    have h1 : x ≤ l0 := pairwise_le_getLast hts.1 hl0 x hx
    have h2 : l0 ≤ hd + rate := hts.2 hd hhdmem l0 hl0
    omega
  · intro x hx l hl
    rw [List.getLast?_concat] at hl
    obtain rfl : l = hd + rate := by injection hl.symm
    rcases List.mem_append.mp hx with hx | hx
    · have h1 : hd ≤ x := pairwise_head_le hts.1 hhd x hx
      omega
    · rw [List.mem_singleton.mp hx]
      omega

lemma emitTimes_append (xs ys : List (ThrottleInterface T)) :
    emitTimes (xs ++ ys) = emitTimes xs ++ emitTimes ys :=
  List.map_append _ xs ys

lemma emitTimes_filter (now period : Int) (q : List (ThrottleInterface T)) :
    emitTimes (q.filter (isWithinCurrentPeriod now period))
      = (emitTimes q).filter (fun t => decide (t > now - period)) := by
  unfold emitTimes
  rw [List.filter_map]
  rfl

lemma schedulePayload_invariant (rate period : Int) (mb : Option Nat)
    (q : List (ThrottleInterface T)) (p : T) (now : Int) (hr : 0 ≤ rate)
    (hinv : QueueTimesInvariant rate (emitTimes q)) :
    QueueTimesInvariant rate (emitTimes (schedulePayload rate period mb q p now)) := by
  have hprInv : QueueTimesInvariant rate
      (emitTimes (q.filter (isWithinCurrentPeriod now period))) := by
    rw [emitTimes_filter]
    exact QueueTimesInvariant_filter hinv _
  by_cases hc : atCapacity mb (q.filter (isWithinCurrentPeriod now period)).length = true
  · rw [schedulePayload_of_atCapacity hc]
    exact hprInv
  · rw [Bool.not_eq_true] at hc
    rw [schedulePayload_of_not_atCapacity hc, emitTimes_append]
    cases hq : q.filter (isWithinCurrentPeriod now period) with
    | nil =>
      rw [hq] at hprInv
      constructor
      · simp [emitTimes, plannedEmission]
      · intro x hx l hl
        simp [emitTimes, plannedEmission] at hx hl
        omega
    | cons h0 t =>
      rw [hq] at hprInv
      have hshape : emitTimes [plannedEmission rate now (h0 :: t) p]
          = [h0.emitTime + rate] := rfl
      rw [hshape]
      exact hprInv.append_anchor hr (by simp [emitTimes])

lemma executeSchedule_emitTimes {q q2 : List (ThrottleInterface T)}
    {em : Option (ThrottleInterface T)} (h : executeSchedule q = some (em, q2)) :
    emitTimes q2 = emitTimes q := by
  cases hl : q.getLast? with
  | none => rw [executeSchedule, hl] at h; cases h
  | some l =>
    by_cases hs : l.scheduled = true
    · rw [executeSchedule_of_scheduled hl hs] at h
      obtain ⟨rfl, rfl⟩ : em = none ∧ q2 = q := by simpa using h.symm
      rfl
    · obtain ⟨xs, rfl⟩ := List.getLast?_eq_some_iff.mp hl
      rw [executeSchedule_concat xs (Bool.not_eq_true _ ▸ hs)] at h
      obtain ⟨rfl, rfl⟩ : em = some l ∧ q2 = xs ++ [markScheduled l] := by simpa using h.symm
      rw [emitTimes_append, emitTimes_append]
      rfl

lemma step_emitTimes (rate period : Int) (mb : Option Nat)
    (q : List (ThrottleInterface T)) (now : Int) (p : T) :
    emitTimes (step rate period mb q now p).1
      = emitTimes (schedulePayload rate period mb q p now) := by
  unfold step
  dsimp only
  cases hexec : executeSchedule (schedulePayload rate period mb q p now) with
  | none => rfl
  | some r =>
    obtain ⟨em, q2⟩ := r
    exact executeSchedule_emitTimes hexec

lemma step_invariant {rate period : Int} {mb : Option Nat}
    {q : List (ThrottleInterface T)} {now : Int} {p : T} (hr : 0 ≤ rate)
    (hinv : QueueTimesInvariant rate (emitTimes q)) :
    QueueTimesInvariant rate (emitTimes (step rate period mb q now p).1) := by
  rw [step_emitTimes]
  exact schedulePayload_invariant rate period mb q p now hr hinv

lemma runTrace_invariant (rate period : Int) (mb : Option Nat) (hr : 0 ≤ rate)
    (arrivals : List (Int × T)) (queue : List (ThrottleInterface T))
    (hinv : QueueTimesInvariant rate (emitTimes queue)) :
    QueueTimesInvariant rate (emitTimes (runTrace rate period mb arrivals queue).1) := by
  induction arrivals generalizing queue with
  | nil => exact hinv
  | cons a rest ih =>
    obtain ⟨now, p⟩ := a
    exact ih _ (step_invariant hr hinv)

lemma reachable_invariant {rate period : Int} {mb : Option Nat}
    {q : List (ThrottleInterface T)} (hr : 0 ≤ rate) (hq : Reachable rate period mb q) :
    QueueTimesInvariant rate (emitTimes q) := by
  obtain ⟨arrivals, rfl⟩ := hq
  exact runTrace_invariant rate period mb hr arrivals []
    ⟨List.Pairwise.nil, by intro x hx; cases hx⟩

/-- In every queue state reachable from the empty queue under a non-negative
rate, the emit times are non-decreasing in queue order, and this ordering is
preserved by every prune-and-append scheduler step taken from such a state.
(Claim C8.) -/
theorem queue_emitTimes_sorted (rate period : Int) (mb : Option Nat) (hr : 0 ≤ rate)
    (q : List (ThrottleInterface T)) (hq : Reachable rate period mb q) :
    (emitTimes q).Pairwise (· ≤ ·) ∧
    ∀ (p : T) (now : Int),
      (emitTimes (schedulePayload rate period mb q p now)).Pairwise (· ≤ ·) := by
  have hinv := reachable_invariant hr hq
  exact ⟨hinv.1, fun p now => (schedulePayload_invariant rate period mb q p now hr hinv).1⟩

/-- Witness for `queue_emitTimes_sorted`: the queue reached after arrivals at
t = 0 and t = 1 has emit times `[0, 3]`, and a further arrival keeps them
sorted. -/
theorem queue_emitTimes_sorted_witness :
    (emitTimes ([⟨0, 0, true, 0⟩, ⟨3, 3, true, 1⟩] : List (ThrottleInterface Nat))).Pairwise
      (· ≤ ·) ∧
    (emitTimes (schedulePayload 3 10 none
      ([⟨0, 0, true, 0⟩, ⟨3, 3, true, 1⟩] : List (ThrottleInterface Nat)) 2 2)).Pairwise
      (· ≤ ·) := by
  have h := queue_emitTimes_sorted 3 10 none (by decide)
    ([⟨0, 0, true, 0⟩, ⟨3, 3, true, 1⟩] : List (ThrottleInterface Nat))
    ⟨[(0, 0), (1, 1)], by decide⟩
  exact ⟨h.1, h.2 2 2⟩

lemma filter_gt_getLast? (c : Int) :
    ∀ (ts : List Int), ts.Pairwise (· ≤ ·) →
    ts.filter (fun t => decide (t > c)) ≠ [] →
    (ts.filter (fun t => decide (t > c))).getLast? = ts.getLast?
  | [], _, hne => absurd rfl hne
  | a :: t, hp, hne => by
    obtain ⟨ha, ht⟩ := List.pairwise_cons.mp hp
    by_cases hac : a > c
    · have hfa : (a :: t).filter (fun t => decide (t > c))
          = a :: t.filter (fun t => decide (t > c)) := by
        rw [List.filter_cons]
        simp [hac]
      by_cases hft : t.filter (fun t => decide (t > c)) = []
      · have ht0 : t = [] := by
          cases t with
          | nil => rfl
          | cons b t2 =>
            exfalso
            have hb : b > c := lt_of_lt_of_le hac (ha b (by simp))
            have hbm : b ∈ (b :: t2).filter (fun t => decide (t > c)) :=
              List.mem_filter.mpr ⟨by simp, by simpa using hb⟩
            rw [hft] at hbm
            cases hbm
        subst ht0
        rw [hfa]
        rfl
      · have htne : t ≠ [] := by
          intro h0
          rw [h0] at hft
          exact hft rfl
        rw [hfa, getLast?_cons_of_ne_nil a hft, getLast?_cons_of_ne_nil a htne]
        exact filter_gt_getLast? c t ht hft
    · have hfa : (a :: t).filter (fun t => decide (t > c))
          = t.filter (fun t => decide (t > c)) := by
        rw [List.filter_cons]
        simp [hac]
      rw [hfa] at hne ⊢
      have htne : t ≠ [] := by
        intro h0
        rw [h0] at hne
        exact hne rfl
      rw [getLast?_cons_of_ne_nil a htne]
      exact filter_gt_getLast? c t ht hne

lemma step_emission_facts (rate period : Int) (mb : Option Nat) (hp : 0 < period)
    {q : List (ThrottleInterface T)} (now : Int) (p : T)
    (hinv : QueueTimesInvariant rate (emitTimes q)) (hsch : AllScheduled q) :
    (∀ e, (step rate period mb q now p).2 = some e →
      (∀ l, (emitTimes q).getLast? = some l → l ≤ e.emitTime) ∧
      (emitTimes (step rate period mb q now p).1).getLast? = some e.emitTime) ∧
    ((step rate period mb q now p).2 = none →
      (emitTimes (step rate period mb q now p).1).getLast? = (emitTimes q).getLast?) := by
  by_cases hc : atCapacity mb (q.filter (isWithinCurrentPeriod now period)).length = true
  · rw [step_of_atCapacity hsch hc]
    constructor
    · intro e he
      cases he
    · intro _
      have hne : q.filter (isWithinCurrentPeriod now period) ≠ [] := by
        intro h0
        exact atCapacity_ne_zero hc (by simp [h0])
      have hne2 : (emitTimes q).filter (fun t => decide (t > now - period)) ≠ [] := by
        rw [← emitTimes_filter]
        simpa [emitTimes] using hne
      dsimp only
      rw [emitTimes_filter]
      exact filter_gt_getLast? (now - period) (emitTimes q) hinv.1 hne2
  · rw [Bool.not_eq_true] at hc
    rw [step_of_not_atCapacity hc]
    constructor
    · intro e he
      obtain rfl : plannedEmission rate now (q.filter (isWithinCurrentPeriod now period)) p
          = e := by simpa using he
      constructor
      · intro l hl
        cases hq : q.filter (isWithinCurrentPeriod now period) with
        | nil =>
          have hfe : (emitTimes q).filter (fun t => decide (t > now - period)) = [] := by
            rw [← emitTimes_filter, hq]
            rfl
          have hlmem : l ∈ emitTimes q := List.mem_of_getLast?_eq_some hl
          have hnl := List.filter_eq_nil_iff.mp hfe l hlmem
          simp only [decide_eq_true_eq, not_lt] at hnl
          have hev : (plannedEmission rate now ([] : List (ThrottleInterface T)) p).emitTime
              = now := rfl
          rw [hev]
          omega
        | cons h0 t =>
          have hm : h0.emitTime ∈ emitTimes q := by
            have hmf : h0 ∈ q.filter (isWithinCurrentPeriod now period) := by
              rw [hq]
              simp
            exact List.mem_map_of_mem _ (List.mem_of_mem_filter hmf)
          have hev : (plannedEmission rate now (h0 :: t) p).emitTime
              = h0.emitTime + rate := rfl
          rw [hev]
          exact hinv.2 h0.emitTime hm l hl
      · dsimp only
        rw [emitTimes_append]
        exact List.getLast?_concat _
    · intro he
      exact absurd he (by simp)

lemma runTrace_mono (rate period : Int) (mb : Option Nat) (hr : 0 ≤ rate) (hp : 0 < period) :
    ∀ (arrivals : List (Int × T)) (q : List (ThrottleInterface T)),
    QueueTimesInvariant rate (emitTimes q) → AllScheduled q →
    (((runTrace rate period mb arrivals q).2.map (·.emitTime)).Pairwise (· ≤ ·)) ∧
    (∀ e ∈ (runTrace rate period mb arrivals q).2, ∀ l,
      (emitTimes q).getLast? = some l → l ≤ e.emitTime)
  | [], q, hinv, hsch => by simp [runTrace]
  | (now, p) :: rest, q, hinv, hsch => by
    have hinv' : QueueTimesInvariant rate (emitTimes (step rate period mb q now p).1) :=
      step_invariant hr hinv
    have hsch' : AllScheduled (step rate period mb q now p).1 :=
      step_allScheduled hsch
    have hfacts := step_emission_facts rate period mb hp now p hinv hsch
    have hrec := runTrace_mono rate period mb hr hp rest
      (step rate period mb q now p).1 hinv' hsch'
    cases hem : (step rate period mb q now p).2 with
    | none =>
      have hlast := hfacts.2 hem
      simp only [runTrace, hem, Option.toList_none, List.nil_append]
      exact ⟨hrec.1, fun e he l hl => hrec.2 e he l (by rw [hlast]; exact hl)⟩
    | some e0 =>
      obtain ⟨hle, hlast⟩ := hfacts.1 e0 hem
      simp only [runTrace, hem, Option.toList_some, List.singleton_append, List.map_cons]
      constructor
      · refine List.pairwise_cons.mpr ⟨?_, hrec.1⟩
        intro y hy
        obtain ⟨e, he, rfl⟩ := List.mem_map.mp hy
        exact hrec.2 e he e0.emitTime hlast
      · intro e he l hl
        rcases List.mem_cons.mp he with rfl | he
        · exact hle l hl
        · exact le_trans (hle l hl) (hrec.2 e he e0.emitTime hlast)

/-- The minimum-spacing claim is false on the code: with `rate = 3000` and
`period = 1000`, arrivals at t = 0, 100, 200 produce consecutive emissions
whose emit times are 3000 and 3000, a spacing of 0 < rate, and the later one
is not an idle-reset fire (its delay is 3000, and the 100 ms arrival gap is
below the period).  (Counterexample to claim C3.) -/
theorem min_spacing_counterexample :
    ((runTrace 3000 1000 none [((0 : Int), (0 : Nat)), (100, 1), (200, 2)] []).2).map
      (fun e => (e.emitTime, e.delay)) = [(0, 0), (3000, 3000), (3000, 3000)] ∧
    ¬ ((3000 : Int) - 3000 ≥ 3000) ∧
    ¬ ((3000 : Int) = 0) ∧
    (200 : Int) - 100 ≤ 1000 := by
  exact ⟨by decide, by decide, by decide, by decide⟩

/-- Amended minimum spacing: under a non-negative rate and a positive period,
consecutive emissions have non-decreasing emit times; the spacing can be 0
when several payloads are anchored to the same queue head, so the lower bound
`rate` holds only between an emission and the head it is anchored to, not
between consecutive emissions.  (Amended claim C3.) -/
theorem emissions_emitTime_monotone (rate period : Int) (mb : Option Nat)
    (hr : 0 ≤ rate) (hp : 0 < period) (arrivals : List (Int × T)) :
    (((runTrace rate period mb arrivals ([] : List (ThrottleInterface T))).2).map
      (·.emitTime)).Pairwise (· ≤ ·) :=
  (runTrace_mono rate period mb hr hp arrivals []
    ⟨List.Pairwise.nil, by intro x hx; cases hx⟩
    (by intro x hx; cases hx)).1

/-- Witness for `emissions_emitTime_monotone` at the spec scenario
`rate = 3000`, `period = 1000`, arrivals at t = 0, 100, 200. -/
theorem emissions_emitTime_monotone_witness :
    (((runTrace 3000 1000 none [((0 : Int), (0 : Nat)), (100, 1), (200, 2)] []).2).map
      (·.emitTime)).Pairwise (· ≤ ·) :=
  emissions_emitTime_monotone 3000 1000 none (by decide) (by decide) _
